import Mathlib

/-!
# Verification of the sattern engine surface

A shallow embedding of the data model and runtime contracts of the sattern
engine (`src/sattern.ts`).  The source file is an ambient TypeScript
declaration: it fixes the API surface, the option defaults and — through its
doc comments — several pieces of behaviour (the `offset` rotation examples,
the `slice` key mapping, `allNotesOff` channel handling, constructor
defaults).  Where the executable code is absent, the operations are modelled
from the specification, faithful to the declaration's doc comments wherever
those speak.
-/

namespace sattern

/-- An object identifier, as assigned by the graph registry. -/
abbrev ObjectID := ℕ

/-- A channel index on a graph node. -/
abbrev Channel := ℕ

/-- Message payloads dispatched by steps (Note/Controller/OSC contents are
abstracted to a numeric payload: the resolver never inspects them). -/
abbrev Message := ℕ

/-- A step target reference: an `AudioUnit` reference by object id, or the
JavaScript `undefined` (modelled as `none`). -/
abbrev TargetRef := Option ObjectID

/-- A step's target→message mapping in insertion order.  Each entry pairs a
target list with a message list; a single (non-list) target or message is
embedded as a one-element list, following the spec's `Single | Multiple`
tagged-union reading of the declaration's duck-typed `Step.MapType`. -/
abbrev StepMap := List (List TargetRef × List Message)

/-- A MIDI note value (`sattern.Note`): key, velocity and channel. -/
structure Note where
  key : ℕ
  velocity : ℕ
  channel : ℕ
deriving DecidableEq, Repr

/-- The `Note` constructor.  Defaults from the declaration's doc comment:
`key` defaults to 0, `velocity` defaults to 127, `channel` defaults to 1.
An omitted argument is passed as `none`. -/
def mkNote (key velocity channel : Option ℕ) : Note :=
  ⟨key.getD 0, velocity.getD 127, channel.getD 1⟩

/-- Modelled from the spec: `Note.on` is the derived note-on flag; the data
model states "velocity > 0 defines note-on" (the declaration only declares
the read-only `on` member). -/
def Note.on (n : Note) : Bool :=
  decide (0 < n.velocity)

/-- A step (`sattern.Step`): a target→message mapping, a duration and a gate,
both in clock pulses. -/
structure Step where
  map : StepMap
  duration : ℕ
  gate : ℕ
deriving DecidableEq, Repr

instance : Inhabited Step := ⟨⟨[], 1, 1⟩⟩

/-- Modelled from the spec: the `Step` constructor.  The declaration gives
`duration` default 4 and `gate` default `duration`; the spec adds the
sanitisation that is not expressible in the declaration: `duration ≥ 1`
("a `duration` (≥1, in pulses)") and `gate` clamped to `[1, duration]`
(gate > duration is clamped to duration; gate < 1 is clamped to 1).  An
omitted argument is passed as `none`. -/
def mkStep (map : Option StepMap) (duration : Option ℕ) (gate : Option ℕ) : Step :=
  let d := max 1 (duration.getD 4)
  let g := min d (max 1 (gate.getD d))
  ⟨map.getD [], d, g⟩

/-- Process-wide settings (`sattern.Settings`): the execution timeout in
milliseconds and the latch flag. -/
structure Settings where
  executionTimeout : ℚ
  latch : Bool
deriving DecidableEq, Repr

/-- The settings defaults from the declaration's doc comments:
`executionTimeout` defaults to 5.0 milliseconds, `latch` defaults to false. -/
def defaultSettings : Settings :=
  ⟨5, false⟩

/-- The latch tracker / keyboard state (`sattern.MidiKeyboardState`),
modelled as the list of originating notes of the currently-held voices. -/
structure MidiKeyboardState where
  held : List Note
deriving DecidableEq, Repr

/-- Modelled from the spec: `MidiKeyboardState.allNotesOff`.  The
declaration's doc comment states the behaviour: "Turns off any
currently-down notes for the specified midi channel.  If you pass 0 for the
midi channel, it will turn off all notes on all channels." -/
def MidiKeyboardState.allNotesOff (st : MidiKeyboardState) (channel : ℕ) :
    MidiKeyboardState :=
  if channel = 0 then ⟨[]⟩
  else ⟨st.held.filter (fun n => decide (n.channel ≠ channel))⟩

/-- A sampler sound (`sattern.Sound`): key/velocity placement and the sample
region it covers.  `startSample`/`endSample` of a slice are relative to the
parent's sample data; the parent covers `[0, lengthInSamples)`. -/
structure Sound where
  lowKey : ℕ
  rootKey : ℕ
  highKey : ℕ
  lowVelocity : ℕ
  highVelocity : ℕ
  startSample : ℕ
  endSample : ℕ
  lengthInSamples : ℕ
deriving DecidableEq, Repr

/-- Modelled from the spec: `Sound.slice`.  The declaration's doc comment:
the sound is split into equal contiguous parts, mapped from `rootKey`
onward retaining the sound's high/low velocity values, root keys wrapping
modulo 128, with at most 128 slices.  Slice `i` of `m = min slices 128`
covers samples `[i·L/m, (i+1)·L/m)` (integer division), so the regions are
contiguous, non-overlapping, cover `[0, L)` and are equal whenever `m`
divides `L`. -/
def Sound.slice (s : Sound) (slices : ℕ) : List Sound :=
  let m := min slices 128
  let L := s.lengthInSamples
  (List.range m).map (fun i =>
    { lowKey := (s.rootKey + i) % 128
      rootKey := (s.rootKey + i) % 128
      highKey := (s.rootKey + i) % 128
      lowVelocity := s.lowVelocity
      highVelocity := s.highVelocity
      startSample := i * L / m
      endSample := (i + 1) * L / m
      lengthInSamples := (i + 1) * L / m - i * L / m })

/-- A graph node (`sattern.GraphNode` / `AudioUnit`): its registry id and
its declared channel counts (channel indices are dense and zero-based). -/
structure GraphNode where
  id : ObjectID
  numInputs : ℕ
  numOutputs : ℕ
deriving DecidableEq, Repr

/-- The routing graph (`sattern.Graph`): the registered nodes and the stored
channel-to-channel connections. -/
structure Graph where
  nodes : List GraphNode
  connections : List ((ObjectID × Channel) × (ObjectID × Channel))
deriving DecidableEq, Repr

/-- `Graph.get`: the registered node with the given identifier, or `none`. -/
def Graph.get (g : Graph) (identifier : ObjectID) : Option GraphNode :=
  g.nodes.find? (fun nd => nd.id == identifier)

/-- Modelled from the spec: a source channel reference is valid when it
resolves to a live registered node and a channel index below the node's
output channel count. -/
def Graph.validSource (g : Graph) (r : ObjectID × Channel) : Bool :=
  match g.get r.1 with
  | some nd => decide (r.2 < nd.numOutputs)
  | none => false

/-- Modelled from the spec: a destination channel reference is valid when it
resolves to a live registered node and a channel index below the node's
input channel count. -/
def Graph.validDestination (g : Graph) (r : ObjectID × Channel) : Bool :=
  match g.get r.1 with
  | some nd => decide (r.2 < nd.numInputs)
  | none => false

/-- Modelled from the spec: `Graph.connect`.  The declaration only gives the
signature `connect(source, destination) -> boolean`; the spec fixes the
contract: true only if every source/destination channel reference resolves
to a live node and channel index, false otherwise, and no partial
connection is ever made (all-or-nothing).  Valid endpoint lists are joined
channel-wise. -/
def Graph.connect (g : Graph) (source destination : List (ObjectID × Channel)) :
    Bool × Graph :=
  if source.all g.validSource && destination.all g.validDestination then
    (true, ⟨g.nodes, g.connections ++ source.zip destination⟩)
  else
    (false, g)

/-- The step resolver's view of the graph registry: the set of live object
ids a step target can still resolve to. -/
abbrev Registry := List ObjectID

/-- Modelled from the spec: resolving one step target through the graph
registry.  An `undefined` target or a target whose node has been removed
does not resolve. -/
def resolveTarget (reg : Registry) (t : TargetRef) : Option ObjectID :=
  match t with
  | some i => if i ∈ reg then some i else none
  | none => none

/-- The cross-product of a target list with its paired message list, in
order: all messages for the first target, then all for the second, … -/
def crossProduct (ts : List TargetRef) (ms : List Message) :
    List (TargetRef × Message) :=
  ts.flatMap (fun t => ms.map (fun msg => (t, msg)))

/-- All (target, message) pairings of a step map, in mapping insertion
order, each multi-valued entry expanded into its cross-product. -/
def pairings (m : StepMap) : List (TargetRef × Message) :=
  m.flatMap (fun e => crossProduct e.1 e.2)

/-- Modelled from the spec: resolving one pairing; `none` when the target no
longer resolves through the registry. -/
def resolvePair (reg : Registry) (p : TargetRef × Message) :
    Option (ObjectID × Message) :=
  (resolveTarget reg p.1).map (fun i => (i, p.2))

/-- Modelled from the spec: the Step Resolver.  Expands each entry of the
step's mapping into its cross-product, resolves each pairing's target
through the registry, skips a pairing whose target no longer resolves, and
dispatches the rest in mapping insertion order. -/
def resolveStep (reg : Registry) (m : StepMap) : List (ObjectID × Message) :=
  m.flatMap (fun e => (crossProduct e.1 e.2).filterMap (resolvePair reg))

/-- Applying a pattern's `offset` to a step list, per the declaration's doc
comment of `PatternOptions.offset`: "If the offset value is greater than
zero then the steps will be shifted to the right by the offset amount
(`[step1, step2, step3]` with offset 1 becomes `[step3, step1, step2]`).
If the offset value is less than zero then the steps will be shifted to the
left."  A right shift by `k` is a left rotation by `(-k) mod N`. -/
def applyOffset {α : Type} (steps : List α) (offset : ℤ) : List α :=
  if steps.length = 0 then steps
  else steps.rotate ((-offset % (steps.length : ℤ)).toNat)

/-- Modelled from the spec: the step order presented to a voice over one
full cycle — the `offset` rotation (from the declaration's doc comment, see
`applyOffset`) followed, when `reversed` is set, by back-to-front traversal
(the declaration only declares the `reversed` flag). -/
def presentedSequence {α : Type} (steps : List α) (offset : ℤ) (reversed : Bool) :
    List α :=
  let r := applyOffset steps offset
  if reversed then r.reverse else r

/-- The pattern construction options (`sattern.PatternOptions`); an omitted
option is `none`. -/
structure PatternOptions where
  name : Option String
  cycle : Option Bool
  offset : Option ℤ
  reversed : Option Bool
  keyRange : Option (ℕ × ℕ)
  velocityRange : Option (ℕ × ℕ)
  clockMultiplier : Option ℚ
  resequence : Option Bool
deriving DecidableEq, Repr

/-- The empty options object: every option omitted. -/
def emptyOptions : PatternOptions :=
  ⟨none, none, none, none, none, none, none, none⟩

/-- A constructed pattern's configuration (`sattern.Pattern`). -/
structure Pattern where
  name : String
  cycle : Bool
  offset : ℤ
  reversed : Bool
  keyRange : ℕ × ℕ
  velocityRange : ℕ × ℕ
  clockMultiplier : ℚ
  resequence : Bool
deriving DecidableEq, Repr

/-- The `Pattern` constructor.  Defaults from the declaration's doc
comments: `cycle` true, `offset` 0, `keyRange` `[0, 127]`, `velocityRange`
`[0, 127]`, `clockMultiplier` 1.0, `resequence` true; `reversed` and `name`
default to false / the empty string. -/
def mkPattern (o : PatternOptions) : Pattern :=
  { name := o.name.getD ""
    cycle := o.cycle.getD true
    offset := o.offset.getD 0
    reversed := o.reversed.getD false
    keyRange := o.keyRange.getD (0, 127)
    velocityRange := o.velocityRange.getD (0, 127)
    clockMultiplier := o.clockMultiplier.getD 1
    resequence := o.resequence.getD true }

/-- Modelled from the spec: the voice allocator's range test — a note-on is
matched by a pattern when its key and velocity both lie inside the
pattern's configured inclusive ranges. -/
def Pattern.matchesNote (p : Pattern) (key velocity : ℕ) : Bool :=
  decide (p.keyRange.1 ≤ key ∧ key ≤ p.keyRange.2 ∧
    p.velocityRange.1 ≤ velocity ∧ velocity ≤ p.velocityRange.2)

/-- The scheduler callbacks and dispatches observable on one voice:
`onAdvanced` with the new step index, a gate-off dispatch, `onEnded`, and a
request for a fresh step list through `onSequence`. -/
inductive Ev where
  | advanced (i : ℕ)
  | gateOff
  | endedEv
  | seqRequest
deriving DecidableEq, Repr

/-- Modelled from the spec: the per-voice scheduler state — the (already
rotated/reversed) step list, the active step index, the remaining duration
and gate pulses of the active step, the owning pattern's cycle/resequence
flags, the ended flag and the completed-cycle count. -/
structure Voice where
  steps : List Step
  idx : ℕ
  remDur : ℕ
  remGate : ℕ
  cycle : Bool
  resequence : Bool
  ended : Bool
  count : ℕ
deriving DecidableEq, Repr

/-- Modelled from the spec: one effective clock pulse of the Pattern
Scheduler state machine (§4.4), returning the callbacks/dispatches fired on
this pulse and the successor state.  An ended voice fires nothing.  A
gate-off is dispatched when the gate countdown reaches zero; a non-cycling
voice on its last step ends (fires `onEnded` once) when that step's gate
countdown reaches zero; when the duration countdown reaches zero the voice
advances (`onAdvanced` fires on every index change); a cycling voice
completing a full pass fires `onEnded`, then requests a fresh sequence when
`resequence` is set (the callback is abstracted: the step list is kept),
and restarts at index 0 with the cycle count incremented. -/
def Voice.tick (v : Voice) : List Ev × Voice :=
  if v.ended then ([], v)
  else if v.steps.length = 0 then ([], v)
  else
    let gateEvs := if v.remGate = 1 then [Ev.gateOff] else []
    if v.idx + 1 = v.steps.length ∧ v.cycle = false ∧ v.remGate = 1 then
      (gateEvs ++ [Ev.endedEv], { v with ended := true, remGate := 0 })
    else if v.remDur = 1 then
      if v.idx + 1 < v.steps.length then
        let s := v.steps.getD (v.idx + 1) default
        (gateEvs ++ [Ev.advanced (v.idx + 1)],
          { v with idx := v.idx + 1, remDur := s.duration, remGate := s.gate })
      else if v.cycle then
        let s := v.steps.getD 0 default
        (gateEvs ++ [Ev.endedEv]
            ++ (if v.resequence then [Ev.seqRequest] else [])
            ++ (if 1 < v.steps.length then [Ev.advanced 0] else []),
          { v with idx := 0, remDur := s.duration, remGate := s.gate,
                   count := v.count + 1 })
      else
        ([], { v with ended := true })
    else
      (gateEvs, { v with remDur := v.remDur - 1, remGate := v.remGate - 1 })

/-- The event trace of a voice over `n` clock pulses. -/
def Voice.run (v : Voice) : ℕ → List Ev
  | 0 => []
  | n + 1 => v.tick.1 ++ v.tick.2.run n

/-- The scheduler's state invariant for a live voice: every step is
well-formed (`1 ≤ gate ≤ duration`), the index is in range, at least one
duration pulse remains, the gate countdown never exceeds the duration
countdown, on the last step of a non-cycling voice the gate has not yet
elapsed, and the voice has not ended. -/
def VoiceH (v : Voice) : Prop :=
  (∀ s ∈ v.steps, 1 ≤ s.gate ∧ s.gate ≤ s.duration) ∧
  v.idx < v.steps.length ∧
  1 ≤ v.remDur ∧
  v.remGate ≤ v.remDur ∧
  (v.idx + 1 = v.steps.length → v.cycle = false → 1 ≤ v.remGate) ∧
  v.ended = false

instance (v : Voice) : Decidable (VoiceH v) := by
  unfold VoiceH; infer_instance

/-- The pulses a suffix of the step list contributes to a non-cycling
voice's lifetime: full durations of all but the last step, then the last
step's gate. -/
def tailPulses : List Step → ℕ
  | [] => 0
  | [s] => s.gate
  | s :: s2 :: rest => s.duration + tailPulses (s2 :: rest)

/-- The number of pulses after which a live non-cycling voice fires
`onEnded`: the remaining gate pulses when it is on its last step, else the
remaining duration of the active step plus the pulses of the remaining
steps. -/
def pulsesToEnd (v : Voice) : ℕ :=
  if v.idx + 1 = v.steps.length then v.remGate
  else v.remDur + tailPulses (v.steps.drop (v.idx + 1))

/-- Modelled from the spec: the Execution Governor.  A callback invocation
is summarised by the step list it produced and its wall-clock running time
in milliseconds; when the running time exceeds the timeout the invocation
is treated as having produced no steps.  The result is a plain list — a
timeout never surfaces as an error value. -/
def govern (timeout : ℚ) (steps : List Step) (elapsed : ℚ) : List Step :=
  if timeout < elapsed then [] else steps

/-- Modelled from the spec: one scheduling cycle over a list of voices, each
summarised by its callback's produced steps and running time; every
invocation runs under the governor independently. -/
def runPulse (timeout : ℚ) (voices : List (List Step × ℚ)) : List (List Step) :=
  voices.map (fun cb => govern timeout cb.1 cb.2)

/-! ## Helper lemmas -/

/-- `filterMap` becomes `map` on a list where the partial function succeeds
everywhere with the given total function. -/
lemma filterMap_eq_map_of_forall {α β : Type} (f : α → Option β) (g : α → β) :
    ∀ l : List α, (∀ a ∈ l, f a = some (g a)) → l.filterMap f = l.map g := by
  intro l
  induction l with
  | nil => intro _; rfl
  | cons a l ih =>
    intro h
    rw [List.filterMap_cons, h a (by simp), List.map_cons,
      ih (fun b hb => h b (by simp [hb]))]

/-- The rotation-index arithmetic behind `applyOffset`: rotating left by
`(-k) mod N` sends position `i` to source position `(i - k) mod N`. -/
lemma rotate_index_arith (N i : ℕ) (k : ℤ) (hi : i < N) :
    (i + (-k % (N : ℤ)).toNat) % N = (((i : ℤ) - k) % (N : ℤ)).toNat := by
  have hNZ : (N : ℤ) ≠ 0 := by exact_mod_cast (by omega : N ≠ 0)
  have h1 : (0 : ℤ) ≤ -k % (N : ℤ) := Int.emod_nonneg _ hNZ
  have key : (((i + (-k % (N : ℤ)).toNat) % N : ℕ) : ℤ) = ((i : ℤ) - k) % (N : ℤ) := by
    push_cast [Int.toNat_of_nonneg h1]
    conv_rhs => rw [sub_eq_add_neg, Int.add_emod]
    conv_lhs => rw [Int.add_emod]
    rw [Int.emod_emod_of_dvd _ dvd_rfl]
  have h2 := congrArg Int.toNat key
  rwa [Int.toNat_natCast] at h2

/-! ## Claim theorems -/

/-- C10: every `Note` constructed without an explicit velocity — whatever
key and channel arguments are supplied or omitted — has velocity 127 (not
0) and hence a derived `on` flag of true; and a `Note` constructed with no
arguments at all is a note-on message on channel 1 with key 0. -/
theorem note_defaults_spec :
    (∀ key channel : Option ℕ,
      (mkNote key none channel).velocity = 127 ∧ (mkNote key none channel).on = true) ∧
    (mkNote none none none).key = 0 ∧
    (mkNote none none none).channel = 1 ∧
    (mkNote none none none).velocity = 127 ∧
    (mkNote none none none).on = true :=
  ⟨fun _ _ => ⟨rfl, rfl⟩, rfl, rfl, rfl, rfl⟩

set_option linter.unnecessarySeqFocus false in
/-- C2: for every map, duration and gate input, the constructed `Step`
satisfies `1 ≤ gate ≤ duration`; an explicit gate is clamped into
`[1, duration]` (too large goes to `duration`, below 1 goes to 1), and an
omitted gate defaults to the step's duration.  The embedding's `Step` is a
pure value, so its map, duration and gate cannot change after
construction. -/
theorem step_gate_clamped :
    ∀ (m : Option StepMap) (d g : Option ℕ),
      (1 ≤ (mkStep m d g).gate ∧ (mkStep m d g).gate ≤ (mkStep m d g).duration) ∧
      (∀ gv : ℕ,
        (mkStep m d (some gv)).gate = min (mkStep m d (some gv)).duration (max 1 gv)) ∧
      (mkStep m d none).gate = (mkStep m d none).duration := by
  intro m d g
  refine ⟨⟨?_, ?_⟩, fun gv => ?_, ?_⟩ <;> simp [mkStep] <;> omega

/-- C6: `allNotesOff 0` releases every currently-held voice on every
channel, and for a channel `c > 0` it releases exactly the voices whose
originating note's channel equals `c`, keeping all others. -/
theorem all_notes_off_spec :
    (∀ st : MidiKeyboardState, (st.allNotesOff 0).held = []) ∧
    (∀ (st : MidiKeyboardState) (c : ℕ), 0 < c →
      ∀ n : Note, n ∈ (st.allNotesOff c).held ↔ n ∈ st.held ∧ n.channel ≠ c) := by
  constructor
  · intro st
    simp [MidiKeyboardState.allNotesOff]
  · intro st c hc n
    unfold MidiKeyboardState.allNotesOff
    rw [if_neg (by omega)]
    simp [List.mem_filter]

/-- Witness for C6 at a concrete keyboard state holding notes on channels
1 and 2. -/
theorem all_notes_off_spec_witness :
    (MidiKeyboardState.allNotesOff ⟨[⟨60, 100, 1⟩, ⟨61, 100, 2⟩]⟩ 0).held = [] ∧
    ((⟨60, 100, 1⟩ : Note) ∈
        (MidiKeyboardState.allNotesOff ⟨[⟨60, 100, 1⟩, ⟨61, 100, 2⟩]⟩ 2).held ↔
      (⟨60, 100, 1⟩ : Note) ∈
          (⟨[⟨60, 100, 1⟩, ⟨61, 100, 2⟩]⟩ : MidiKeyboardState).held ∧
        (⟨60, 100, 1⟩ : Note).channel ≠ 2) :=
  ⟨all_notes_off_spec.1 ⟨[⟨60, 100, 1⟩, ⟨61, 100, 2⟩]⟩,
    all_notes_off_spec.2 ⟨[⟨60, 100, 1⟩, ⟨61, 100, 2⟩]⟩ 2 (by decide) ⟨60, 100, 1⟩⟩

/-- C4: `Graph.connect` returns true exactly when every source and
destination channel reference resolves to a live registered node and an
in-range channel index, and when it returns false the routing state is
completely unchanged (all-or-nothing). -/
theorem graph_connect_all_or_nothing :
    ∀ (g : Graph) (ss ds : List (ObjectID × Channel)),
      ((g.connect ss ds).1 = true ↔
        (∀ s ∈ ss, g.validSource s = true) ∧ (∀ d ∈ ds, g.validDestination d = true)) ∧
      ((g.connect ss ds).1 = false → (g.connect ss ds).2 = g) := by
  intro g ss ds
  unfold Graph.connect
  by_cases h : (ss.all g.validSource && ds.all g.validDestination) = true
  · rw [if_pos h]
    rw [Bool.and_eq_true, List.all_eq_true, List.all_eq_true] at h
    exact ⟨by simpa using h, by simp⟩
  · rw [if_neg h]
    rw [Bool.and_eq_true, List.all_eq_true, List.all_eq_true] at h
    constructor
    · simpa using h
    · intro _; rfl

/-- Witness for C4: connecting from an unregistered node on the empty graph
fails and leaves the graph unchanged. -/
theorem graph_connect_all_or_nothing_witness :
    ((⟨[], []⟩ : Graph).connect [(0, 0)] []).1 = false ∧
    ((⟨[], []⟩ : Graph).connect [(0, 0)] []).2 = (⟨[], []⟩ : Graph) :=
  ⟨by decide, (graph_connect_all_or_nothing ⟨[], []⟩ [(0, 0)] []).2 (by decide)⟩

/-- C8: the default execution timeout is 5.0 milliseconds; a callback whose
running time exceeds the timeout is treated as having produced no steps
while one within budget keeps its result (and the governor's result is a
plain step list, never an error); and the governed result of every other
voice's callback in a scheduling cycle is unaffected by replacing one
voice's callback — a slow callback affects only its own voice. -/
theorem execution_governor_spec :
    defaultSettings.executionTimeout = 5 ∧
    (∀ (t e : ℚ) (s : List Step), t < e → govern t s e = []) ∧
    (∀ (t e : ℚ) (s : List Step), e ≤ t → govern t s e = s) ∧
    (∀ (t : ℚ) (vs : List (List Step × ℚ)) (i : ℕ) (cb : List Step × ℚ) (j : ℕ),
      j ≠ i → (runPulse t (vs.set i cb))[j]? = (runPulse t vs)[j]?) := by
  refine ⟨rfl, ?_, ?_, ?_⟩
  · intro t e s h
    simp [govern, h]
  · intro t e s h
    simp [govern, not_lt.2 h]
  · intro t vs i cb j hj
    simp [runPulse, List.getElem?_map, List.getElem?_set, Ne.symm hj]

/-- Witness for C8: with the default 5 ms budget, a 6 ms callback yields no
steps, a 1 ms callback keeps its step, and replacing voice 0's callback by
the slow one leaves voice 1's governed result untouched. -/
theorem execution_governor_spec_witness :
    govern 5 [mkStep none none none] 6 = [] ∧
    govern 5 [mkStep none none none] 1 = [mkStep none none none] ∧
    (runPulse 5 ([([mkStep none none none], 1), ([mkStep none none none], 2)].set 0
        ([mkStep none none none], 6)))[1]? =
      (runPulse 5 [([mkStep none none none], 1), ([mkStep none none none], 2)])[1]? :=
  ⟨execution_governor_spec.2.1 5 6 [mkStep none none none] (by norm_num),
    execution_governor_spec.2.2.1 5 1 [mkStep none none none] (by norm_num),
    execution_governor_spec.2.2.2 5 [([mkStep none none none], 1), ([mkStep none none none], 2)]
      0 ([mkStep none none none], 6) 1 (by decide)⟩

/-- C1 counterexample: on the step list `[1, 2, 3]` with `offset = 1`, the
sequence presented to a voice is `[3, 1, 2]` (the declaration's doc
comment: positive offsets shift the steps to the right), whereas reading
the unshifted list starting at index `1 mod 3` — the claim's cyclic left
shift — gives `[2, 3, 1]`.  The claim's characterisation fails. -/
theorem offset_positive_not_left_shift :
    presentedSequence [1, 2, 3] 1 false = [3, 1, 2] ∧
    [(1 : ℕ), 2, 3].rotate (((1 : ℤ) % ((3 : ℕ) : ℤ)).toNat) = [2, 3, 1] ∧
    presentedSequence [(1 : ℕ), 2, 3] 1 false ≠
      [(1 : ℕ), 2, 3].rotate (((1 : ℤ) % ((3 : ℕ) : ℤ)).toNat) := by
  refine ⟨?_, ?_, ?_⟩ <;> decide

/-- C1 amended: over one full cycle the voice sees the unshifted step list
read starting at index `(-k) mod N` — position `i` holds step
`(i - k) mod N`, so a positive offset `k` is a cyclic right shift and a
negative offset shifts in the opposite direction — and with
`reversed = true` this rotated sequence is additionally traversed
back-to-front. -/
theorem offset_rotation_amended (α : Type) (steps : List α) (k : ℤ) (i : ℕ)
    (hi : i < steps.length) :
    (presentedSequence steps k false)[i]? =
      steps[(((i : ℤ) - k) % (steps.length : ℤ)).toNat]? ∧
    (presentedSequence steps k true)[i]? =
      steps[(((steps.length : ℤ) - 1 - (i : ℤ) - k) % (steps.length : ℤ)).toNat]? := by
  have hlen : ¬ steps.length = 0 := by omega
  constructor
  · show (applyOffset steps k)[i]? = _
    unfold applyOffset
    rw [if_neg hlen, List.getElem?_rotate hi, rotate_index_arith steps.length i k hi]
  · show (applyOffset steps k).reverse[i]? = _
    have hlr : (applyOffset steps k).length = steps.length := by
      unfold applyOffset
      rw [if_neg hlen]
      exact List.length_rotate _ _
    rw [List.getElem?_reverse (by omega : i < (applyOffset steps k).length), hlr]
    unfold applyOffset
    rw [if_neg hlen]
    have hi2 : steps.length - 1 - i < steps.length := by omega
    rw [List.getElem?_rotate hi2, rotate_index_arith steps.length (steps.length - 1 - i) k hi2]
    have hcast : ((steps.length - 1 - i : ℕ) : ℤ) = (steps.length : ℤ) - 1 - (i : ℤ) := by
      omega
    rw [hcast]

/-- Witness for C1 amended: on `[10, 20, 30]` with `offset = 1`, position 0
of the presented sequence holds step `(0 - 1) mod 3 = 2`, value 30. -/
theorem offset_rotation_amended_witness :
    (presentedSequence ([10, 20, 30] : List ℕ) 1 false)[0]? = some 30 ∧
    (presentedSequence ([10, 20, 30] : List ℕ) 1 true)[0]? = some 20 := by
  have h := offset_rotation_amended ℕ [10, 20, 30] 1 0 (by decide)
  exact ⟨by rw [h.1]; decide, by rw [h.2]; decide⟩

/-- Integer division is superadditive: `a/m + b/m ≤ (a+b)/m`. -/
lemma div_add_div_le (a b m : ℕ) (hm : 0 < m) : a / m + b / m ≤ (a + b) / m := by
  rw [Nat.le_div_iff_mul_le hm]
  have ha : a / m * m ≤ a := Nat.div_mul_le_self a m
  have hb : b / m * m ≤ b := Nat.div_mul_le_self b m
  have hx : (a / m + b / m) * m = a / m * m + b / m * m := by ring
  omega

/-- Integer division is subadditive up to one: `(a+b)/m ≤ a/m + b/m + 1`. -/
lemma add_div_le_div_add (a b m : ℕ) (hm : 0 < m) : (a + b) / m ≤ a / m + b / m + 1 := by
  have h : (a + b) / m < a / m + b / m + 2 := by
    rw [Nat.div_lt_iff_lt_mul hm]
    have ha := Nat.div_add_mod a m
    have hb := Nat.div_add_mod b m
    have h1 : a % m < m := Nat.mod_lt _ hm
    have h2 : b % m < m := Nat.mod_lt _ hm
    have hx : (a / m + b / m + 2) * m = m * (a / m) + m * (b / m) + 2 * m := by ring
    omega
  omega

/-- C3 counterexample: slicing a 10-sample sound into 4 parts yields region
sizes `[2, 3, 2, 3]` — contiguous and covering, but not equal parts, so
the claim's unconditional "equal parts" fails at this input (it can only
hold when the slice count divides the sample length). -/
theorem sound_slice_not_equal_parts :
    (Sound.slice ⟨0, 126, 127, 10, 100, 0, 10, 10⟩ 4).map
        (fun sl => sl.endSample - sl.startSample) = [2, 3, 2, 3] ∧
    ((Sound.slice ⟨0, 126, 127, 10, 100, 0, 10, 10⟩ 4).map
        (fun sl => sl.endSample - sl.startSample))[0]? ≠
      ((Sound.slice ⟨0, 126, 127, 10, 100, 0, 10, 10⟩ 4).map
        (fun sl => sl.endSample - sl.startSample))[1]? := by
  refine ⟨?_, ?_⟩ <;> decide

/-- C3 amended: `slice n` with `n ≥ 1` yields exactly `min n 128` sounds;
slice `i` has root key `(rootKey + i) mod 128` and the parent's velocity
range; the sample regions are contiguous (each slice starts where the
previous one ends), well-formed, start at 0 and end at the parent's full
sample length (hence non-overlapping and covering), and are maximally
equal: every region's size is `L / m` or `L / m + 1` (for `m = min n 128`
and `L` the parent's sample length), with all sizes exactly `L / m`
whenever `m` divides `L`. -/
theorem sound_slice_spec (s : Sound) (n : ℕ) (h : 1 ≤ n) :
    (s.slice n).length = min n 128 ∧
    (∀ (i : ℕ) (hi : i < (s.slice n).length),
      ((s.slice n).get ⟨i, hi⟩).rootKey = (s.rootKey + i) % 128 ∧
      ((s.slice n).get ⟨i, hi⟩).lowVelocity = s.lowVelocity ∧
      ((s.slice n).get ⟨i, hi⟩).highVelocity = s.highVelocity ∧
      ((s.slice n).get ⟨i, hi⟩).startSample ≤ ((s.slice n).get ⟨i, hi⟩).endSample) ∧
    (∀ (i : ℕ) (hi1 : i + 1 < (s.slice n).length) (hi : i < (s.slice n).length),
      ((s.slice n).get ⟨i + 1, hi1⟩).startSample = ((s.slice n).get ⟨i, hi⟩).endSample) ∧
    (∀ h0 : 0 < (s.slice n).length, ((s.slice n).get ⟨0, h0⟩).startSample = 0) ∧
    (∀ hl : (s.slice n).length - 1 < (s.slice n).length,
      ((s.slice n).get ⟨(s.slice n).length - 1, hl⟩).endSample = s.lengthInSamples) ∧
    (∀ (i : ℕ) (hi : i < (s.slice n).length), min n 128 ∣ s.lengthInSamples →
      ((s.slice n).get ⟨i, hi⟩).endSample - ((s.slice n).get ⟨i, hi⟩).startSample =
        s.lengthInSamples / min n 128) ∧
    (∀ (i : ℕ) (hi : i < (s.slice n).length),
      s.lengthInSamples / min n 128 ≤
          ((s.slice n).get ⟨i, hi⟩).endSample - ((s.slice n).get ⟨i, hi⟩).startSample ∧
        ((s.slice n).get ⟨i, hi⟩).endSample - ((s.slice n).get ⟨i, hi⟩).startSample ≤
          s.lengthInSamples / min n 128 + 1) := by
  have hm : 0 < min n 128 := by omega
  have hlen : (s.slice n).length = min n 128 := by
    simp [Sound.slice]
  refine ⟨hlen, ?_, ?_, ?_, ?_, ?_, ?_⟩
  · intro i hi
    simp only [Sound.slice, List.get_eq_getElem, List.getElem_map, List.getElem_range]
    refine ⟨trivial, trivial, trivial, ?_⟩
    exact Nat.div_le_div_right (Nat.mul_le_mul_right _ (by omega))
  · intro i hi1 hi
    simp only [Sound.slice, List.get_eq_getElem, List.getElem_map, List.getElem_range]
  · intro h0
    simp [Sound.slice]
  · intro hl
    simp only [Sound.slice, List.get_eq_getElem, List.getElem_map, List.getElem_range,
      List.length_map, List.length_range]
    have hstep : min n 128 - 1 + 1 = min n 128 := by omega
    rw [hstep, Nat.mul_div_cancel_left _ hm]
  · intro i hi hdvd
    obtain ⟨q, hq⟩ := hdvd
    simp only [Sound.slice, List.get_eq_getElem, List.getElem_map, List.getElem_range]
    rw [hq]
    have h1 : (i + 1) * (min n 128 * q) = ((i + 1) * q) * min n 128 := by ring
    have h2 : i * (min n 128 * q) = (i * q) * min n 128 := by ring
    rw [h1, h2, Nat.mul_div_cancel _ hm, Nat.mul_div_cancel _ hm,
      Nat.mul_div_cancel_left _ hm]
    have h3 : (i + 1) * q = i * q + q := by ring
    omega
  · intro i hi
    simp only [Sound.slice, List.get_eq_getElem, List.getElem_map, List.getElem_range]
    have hrw : (i + 1) * s.lengthInSamples = i * s.lengthInSamples + s.lengthInSamples := by
      ring
    have h1 := div_add_div_le (i * s.lengthInSamples) s.lengthInSamples (min n 128) hm
    have h2 := add_div_le_div_add (i * s.lengthInSamples) s.lengthInSamples (min n 128) hm
    rw [hrw]
    revert h1 h2
    generalize (i * s.lengthInSamples + s.lengthInSamples) / min n 128 = A
    generalize i * s.lengthInSamples / min n 128 = B
    generalize s.lengthInSamples / min n 128 = C
    intro h1 h2
    omega

/-- Witness for C3 at a concrete sound: root key 126, velocity range
`[10, 100]`, 10 samples, sliced into 4 parts. -/
theorem sound_slice_spec_witness :
    (1 : ℕ) ≤ 4 ∧
    ((⟨0, 126, 127, 10, 100, 0, 10, 10⟩ : Sound).slice 4).length = min 4 128 :=
  ⟨by decide, (sound_slice_spec ⟨0, 126, 127, 10, 100, 0, 10, 10⟩ 4 (by decide)).1⟩

/-- C5: the Step Resolver dispatches exactly the pairings of the step's
mapping — each entry's target list crossed with its paired message list, in
insertion order — resolving each pairing's target through the registry;
a pairing whose target no longer resolves is skipped alone, with every
remaining pairing still dispatched in order; and when every target
resolves, the dispatch list is exactly the full cross-product in insertion
order. -/
theorem step_resolver_cross_product :
    (∀ (reg : Registry) (m : StepMap),
      resolveStep reg m = (pairings m).filterMap (resolvePair reg)) ∧
    (∀ (reg : Registry) (m : StepMap) (l₁ l₂ : List (TargetRef × Message))
      (p : TargetRef × Message),
      pairings m = l₁ ++ p :: l₂ → resolvePair reg p = none →
      resolveStep reg m =
        l₁.filterMap (resolvePair reg) ++ l₂.filterMap (resolvePair reg)) ∧
    (∀ (reg : Registry) (m : StepMap),
      (∀ e ∈ m, ∀ t ∈ e.1, ∃ i, t = some i ∧ i ∈ reg) →
      resolveStep reg m = (pairings m).map (fun p => (p.1.getD 0, p.2))) := by
  have base : ∀ (reg : Registry) (m : StepMap),
      resolveStep reg m = (pairings m).filterMap (resolvePair reg) := by
    intro reg m
    induction m with
    | nil => rfl
    | cons e m ih =>
      rw [resolveStep, pairings, List.flatMap_cons, List.flatMap_cons,
        List.filterMap_append]
      rw [resolveStep, pairings] at ih
      rw [ih]
  refine ⟨base, ?_, ?_⟩
  · intro reg m l₁ l₂ p hsplit hnone
    rw [base, hsplit, List.filterMap_append, List.filterMap_cons, hnone]
  · intro reg m hall
    rw [base]
    apply filterMap_eq_map_of_forall
    intro p hp
    simp only [pairings, crossProduct, List.mem_flatMap, List.mem_map] at hp
    obtain ⟨e, he, t, ht, msg, _, hpe⟩ := hp
    obtain ⟨i, rfl, hireg⟩ := hall e he t ht
    subst hpe
    simp [resolvePair, resolveTarget, hireg]

/-- Witness for C5: one entry targeting nodes 1 and 2 with message 7, where
node 2 has been removed from the registry: only the pairing `(2, 7)` is
skipped and `(1, 7)` is still dispatched. -/
theorem step_resolver_cross_product_witness :
    resolveStep [1] [([some 1, some 2], [7])] =
      List.filterMap (resolvePair [1]) [(some 1, 7)] ++
        List.filterMap (resolvePair [1]) [] :=
  step_resolver_cross_product.2.1 [1] [([some 1, some 2], [7])]
    [(some 1, 7)] [] (some 2, 7) (by decide) (by decide)

/-! ## Scheduler lemmas -/

/-- An ended voice's tick fires nothing and leaves the state unchanged. -/
lemma tick_of_ended (v : Voice) (h : v.ended = true) : v.tick = ([], v) := by
  simp only [Voice.tick]
  rw [if_pos h]

/-- An ended voice fires no callbacks over any number of pulses. -/
lemma run_of_ended (v : Voice) (h : v.ended = true) : ∀ n, v.run n = [] := by
  intro n
  induction n with
  | zero => rfl
  | succ n ih =>
    show v.tick.1 ++ v.tick.2.run n = []
    rw [tick_of_ended v h]
    simpa using ih

/-- `Ev.seqRequest` never occurs among the gate-off events of a pulse. -/
lemma seqRequest_not_mem_gate (c : Prop) [Decidable c] :
    Ev.seqRequest ∉ (if c then [Ev.gateOff] else []) := by
  split <;> decide

/-- `Ev.advanced j` never occurs among the gate-off events of a pulse. -/
lemma advanced_not_mem_gate (c : Prop) [Decidable c] (j : ℕ) :
    Ev.advanced j ∉ (if c then [Ev.gateOff] else []) := by
  split <;> simp

/-- The gate-off events of a pulse contain no `Ev.endedEv`. -/
lemma count_ended_gate (c : Prop) [Decidable c] :
    (if c then [Ev.gateOff] else []).count Ev.endedEv = 0 := by
  split <;> decide

/-- A singleton advance event contains no `Ev.endedEv`. -/
lemma count_ended_advanced (j : ℕ) : [Ev.advanced j].count Ev.endedEv = 0 := by
  simp [List.count_cons]

/-- A nonempty list of well-formed steps contributes at least one pulse. -/
lemma tailPulses_pos : ∀ l : List Step, l ≠ [] →
    (∀ s ∈ l, 1 ≤ s.gate ∧ s.gate ≤ s.duration) → 1 ≤ tailPulses l := by
  intro l
  induction l with
  | nil => intro h _; exact absurd rfl h
  | cons s l ih =>
    intro _ hwf
    cases l with
    | nil => exact (hwf s (by simp)).1
    | cons t r =>
      have h1 : 1 ≤ s.gate := (hwf s (by simp)).1
      have h2 : s.gate ≤ s.duration := (hwf s (by simp)).2
      show 1 ≤ s.duration + tailPulses (t :: r)
      omega

/-- `pulsesToEnd` on an explicit voice record. -/
lemma pulsesToEnd_mk (steps : List Step) (idx remDur remGate : ℕ) (c r e : Bool)
    (cnt : ℕ) :
    pulsesToEnd ⟨steps, idx, remDur, remGate, c, r, e, cnt⟩ =
      if idx + 1 = steps.length then remGate
      else remDur + tailPulses (steps.drop (idx + 1)) := rfl

/-- A live non-cycling voice needs at least one more pulse to end. -/
lemma pulsesToEnd_pos (v : Voice) (hv : VoiceH v) (hc : v.cycle = false) :
    1 ≤ pulsesToEnd v := by
  obtain ⟨hwf, hidx, hdur, hgd, hlast, hend⟩ := hv
  unfold pulsesToEnd
  split
  case isTrue h => exact hlast h hc
  case isFalse h => omega

/-- One pulse of a live non-cycling voice: on its final pulse it fires
`onEnded` exactly once and transitions to `Ended`; on any earlier pulse it
fires no `onEnded`, stays live and well-formed, and its remaining lifetime
decreases by exactly one pulse. -/
lemma tick_nonCycle (v : Voice) (hv : VoiceH v) (hc : v.cycle = false) :
    (pulsesToEnd v = 1 → v.tick.1.count Ev.endedEv = 1 ∧ v.tick.2.ended = true) ∧
    (1 < pulsesToEnd v → v.tick.1.count Ev.endedEv = 0 ∧ VoiceH v.tick.2 ∧
      v.tick.2.cycle = false ∧ pulsesToEnd v.tick.2 = pulsesToEnd v - 1) := by
  obtain ⟨hwf, hidx, hdur, hgd, hlast, hend⟩ := hv
  have hne : ¬ v.steps.length = 0 := by omega
  have hnotended : ¬ (v.ended = true) := by simp [hend]
  constructor
  · intro h1
    by_cases hL : v.idx + 1 = v.steps.length
    · have hg : v.remGate = 1 := by
        unfold pulsesToEnd at h1
        rwa [if_pos hL] at h1
      have htick : v.tick =
          ((if v.remGate = 1 then [Ev.gateOff] else []) ++ [Ev.endedEv],
            ⟨v.steps, v.idx, v.remDur, 0, v.cycle, v.resequence, true, v.count⟩) := by
        simp only [Voice.tick]
        rw [if_neg hnotended, if_neg hne, if_pos ⟨hL, hc, hg⟩]
      rw [htick]
      refine ⟨?_, rfl⟩
      rw [List.count_append, count_ended_gate]
      rfl
    · exfalso
      have hlt : v.idx + 1 < v.steps.length := by omega
      have hdropne : v.steps.drop (v.idx + 1) ≠ [] := by
        have : (v.steps.drop (v.idx + 1)).length = v.steps.length - (v.idx + 1) :=
          List.length_drop _ _
        intro hcon
        rw [hcon] at this
        simp at this
        omega
      have hp := tailPulses_pos (v.steps.drop (v.idx + 1)) hdropne
        (fun s hs => hwf s (List.mem_of_mem_drop hs))
      unfold pulsesToEnd at h1
      rw [if_neg hL] at h1
      omega
  · intro h2
    by_cases hL : v.idx + 1 = v.steps.length
    · have hg : 1 < v.remGate := by
        unfold pulsesToEnd at h2
        rwa [if_pos hL] at h2
      have htick : v.tick =
          ((if v.remGate = 1 then [Ev.gateOff] else []),
            ⟨v.steps, v.idx, v.remDur - 1, v.remGate - 1, v.cycle, v.resequence,
              v.ended, v.count⟩) := by
        simp only [Voice.tick]
        rw [if_neg hnotended, if_neg hne,
          if_neg (fun hcon => by omega : ¬(v.idx + 1 = v.steps.length ∧
            v.cycle = false ∧ v.remGate = 1)),
          if_neg (by omega : ¬ v.remDur = 1)]
      rw [htick]
      dsimp only
      refine ⟨count_ended_gate _,
        ⟨hwf, hidx, by dsimp only; omega, by dsimp only; omega,
          fun _ _ => by dsimp only; omega, hend⟩, hc, ?_⟩
      rw [pulsesToEnd_mk, if_pos hL]
      unfold pulsesToEnd
      rw [if_pos hL]
    · have hlt : v.idx + 1 < v.steps.length := by omega
      have hpe : pulsesToEnd v = v.remDur + tailPulses (v.steps.drop (v.idx + 1)) := by
        unfold pulsesToEnd
        rw [if_neg hL]
      by_cases hd : v.remDur = 1
      · have hs : v.steps.getD (v.idx + 1) default = v.steps.get ⟨v.idx + 1, hlt⟩ := by
          rw [List.getD_eq_getElem _ _ hlt]
          rfl
        have hsmem : v.steps.get ⟨v.idx + 1, hlt⟩ ∈ v.steps := List.get_mem _ _ hlt
        have hswf := hwf _ hsmem
        have htick : v.tick =
            ((if v.remGate = 1 then [Ev.gateOff] else []) ++ [Ev.advanced (v.idx + 1)],
              ⟨v.steps, v.idx + 1, (v.steps.getD (v.idx + 1) default).duration,
                (v.steps.getD (v.idx + 1) default).gate, v.cycle, v.resequence,
                v.ended, v.count⟩) := by
          simp only [Voice.tick]
          rw [if_neg hnotended, if_neg hne,
            if_neg (fun hcon => hL hcon.1), if_pos hd, if_pos hlt]
        have hdrop : v.steps.drop (v.idx + 1) =
            v.steps.get ⟨v.idx + 1, hlt⟩ :: v.steps.drop (v.idx + 2) := by
          rw [List.drop_eq_getElem_cons hlt]
          rfl
        rw [htick]
        dsimp only
        refine ⟨?_, ⟨hwf, hlt, by dsimp only; rw [hs]; omega, by dsimp only; rw [hs]; omega,
          fun _ _ => by dsimp only; rw [hs]; exact hswf.1, hend⟩, hc, ?_⟩
        · rw [List.count_append, count_ended_gate, count_ended_advanced]
        · rw [pulsesToEnd_mk, hpe, hdrop, hs]
          by_cases hL2 : v.idx + 1 + 1 = v.steps.length
          · rw [if_pos hL2]
            have hnil : v.steps.drop (v.idx + 2) = [] :=
              List.drop_eq_nil_of_le (by omega)
            rw [hnil]
            show _ = v.remDur + tailPulses [_] - 1
            rw [tailPulses]
            omega
          · rw [if_neg hL2]
            have hlt2 : v.idx + 2 < v.steps.length := by omega
            have hdrop2 : v.steps.drop (v.idx + 2) =
                v.steps.get ⟨v.idx + 2, hlt2⟩ :: v.steps.drop (v.idx + 3) := by
              rw [List.drop_eq_getElem_cons hlt2]
              rfl
            rw [hdrop2, tailPulses]
            omega
      · have htick : v.tick =
            ((if v.remGate = 1 then [Ev.gateOff] else []),
              ⟨v.steps, v.idx, v.remDur - 1, v.remGate - 1, v.cycle, v.resequence,
                v.ended, v.count⟩) := by
          simp only [Voice.tick]
          rw [if_neg hnotended, if_neg hne,
            if_neg (fun hcon => hL hcon.1), if_neg hd]
        rw [htick]
        dsimp only
        refine ⟨count_ended_gate _, ⟨hwf, hidx, by dsimp only; omega, by dsimp only; omega,
          fun hcon _ => absurd hcon hL, hend⟩, hc, ?_⟩
        rw [pulsesToEnd_mk, if_neg hL, hpe]
        omega

/-- Over any run, a live well-formed non-cycling voice fires `onEnded`
exactly once if the run reaches its last step's gate end, and never
before. -/
lemma run_count_ended : ∀ (n : ℕ) (v : Voice), VoiceH v → v.cycle = false →
    (v.run n).count Ev.endedEv = if pulsesToEnd v ≤ n then 1 else 0 := by
  intro n
  induction n with
  | zero =>
    intro v hv hc
    have h1 := pulsesToEnd_pos v hv hc
    rw [if_neg (by omega)]
    rfl
  | succ n ih =>
    intro v hv hc
    have h1 := pulsesToEnd_pos v hv hc
    show (v.tick.1 ++ v.tick.2.run n).count Ev.endedEv = _
    rw [List.count_append]
    by_cases hp : pulsesToEnd v = 1
    · obtain ⟨hcnt, hended⟩ := (tick_nonCycle v hv hc).1 hp
      rw [hcnt, run_of_ended _ hended, if_pos (by omega)]
      rfl
    · obtain ⟨hcnt, hv2, hc2, hpe⟩ := (tick_nonCycle v hv hc).2 (by omega)
      rw [hcnt, ih _ hv2 hc2, hpe]
      split_ifs <;> omega

/-- In one pulse of a live voice, a sequence request is always immediately
preceded by the `onEnded` callback. -/
lemma tick_seqRequest (v : Voice) (hv : VoiceH v) :
    Ev.seqRequest ∈ v.tick.1 →
    ∃ l₁ l₂ : List Ev, v.tick.1 = l₁ ++ Ev.endedEv :: Ev.seqRequest :: l₂ := by
  obtain ⟨hwf, hidx, hdur, hgd, hlast, hend⟩ := hv
  have hne : ¬ v.steps.length = 0 := by omega
  have hnotended : ¬ (v.ended = true) := by simp [hend]
  simp only [Voice.tick]
  rw [if_neg hnotended, if_neg hne]
  by_cases h2 : v.idx + 1 = v.steps.length ∧ v.cycle = false ∧ v.remGate = 1
  · rw [if_pos h2]
    intro hmem
    rcases List.mem_append.1 hmem with h | h
    · exact absurd h (seqRequest_not_mem_gate _)
    · simp at h
  · rw [if_neg h2]
    by_cases h3 : v.remDur = 1
    · rw [if_pos h3]
      by_cases h4 : v.idx + 1 < v.steps.length
      · rw [if_pos h4]
        intro hmem
        rcases List.mem_append.1 hmem with h | h
        · exact absurd h (seqRequest_not_mem_gate _)
        · simp at h
      · rw [if_neg h4]
        by_cases hcyc : v.cycle = true
        · rw [if_pos hcyc]
          intro hmem
          dsimp only at hmem
          by_cases hres : v.resequence = true
          · refine ⟨if v.remGate = 1 then [Ev.gateOff] else [],
              if 1 < v.steps.length then [Ev.advanced 0] else [], ?_⟩
            rw [if_pos hres]
            simp
          · exfalso
            rw [if_neg hres] at hmem
            rcases List.mem_append.1 hmem with h | h
            · rcases List.mem_append.1 h with h5 | h5
              · rcases List.mem_append.1 h5 with h6 | h6
                · exact absurd h6 (seqRequest_not_mem_gate _)
                · simp at h6
              · simp at h5
            · revert h
              split <;> simp
        · rw [if_neg hcyc]
          intro hmem
          simp at hmem
    · rw [if_neg h3]
      intro hmem
      exact absurd hmem (seqRequest_not_mem_gate _)

/-- In one pulse of a live voice, `onAdvanced` fires precisely when the
active step index changes, and it carries the new index. -/
lemma tick_advanced_iff (v : Voice) (hv : VoiceH v) (j : ℕ) :
    Ev.advanced j ∈ v.tick.1 ↔ v.tick.2.idx ≠ v.idx ∧ j = v.tick.2.idx := by
  obtain ⟨hwf, hidx, hdur, hgd, hlast, hend⟩ := hv
  have hne : ¬ v.steps.length = 0 := by omega
  have hnotended : ¬ (v.ended = true) := by simp [hend]
  simp only [Voice.tick]
  rw [if_neg hnotended, if_neg hne]
  by_cases h2 : v.idx + 1 = v.steps.length ∧ v.cycle = false ∧ v.remGate = 1
  · rw [if_pos h2]
    constructor
    · intro hmem
      exfalso
      rcases List.mem_append.1 hmem with h | h
      · exact absurd h (advanced_not_mem_gate _ _)
      · simp at h
    · intro ⟨hne2, _⟩
      exact absurd rfl hne2
  · rw [if_neg h2]
    by_cases h3 : v.remDur = 1
    · rw [if_pos h3]
      by_cases h4 : v.idx + 1 < v.steps.length
      · rw [if_pos h4]
        dsimp only
        constructor
        · intro hmem
          rcases List.mem_append.1 hmem with h | h
          · exact absurd h (advanced_not_mem_gate _ _)
          · simp at h
            exact ⟨by omega, h⟩
        · intro ⟨_, hj⟩
          apply List.mem_append.2
          right
          simp [hj]
      · rw [if_neg h4]
        have hLeq : v.idx + 1 = v.steps.length := by omega
        by_cases hcyc : v.cycle = true
        · rw [if_pos hcyc]
          dsimp only
          by_cases h5 : 1 < v.steps.length
          · constructor
            · intro hmem
              rcases List.mem_append.1 hmem with h | h
              · exfalso
                rcases List.mem_append.1 h with h6 | h6
                · rcases List.mem_append.1 h6 with h7 | h7
                  · exact absurd h7 (advanced_not_mem_gate _ _)
                  · simp at h7
                · revert h6
                  split <;> simp
              · rw [if_pos h5] at h
                simp at h
                refine ⟨?_, h⟩
                show ¬ (0 = v.idx)
                omega
            · intro ⟨_, hj⟩
              apply List.mem_append.2
              right
              rw [if_pos h5]
              simp [hj]
          · have hidx0 : v.idx = 0 := by omega
            constructor
            · intro hmem
              exfalso
              rcases List.mem_append.1 hmem with h | h
              · rcases List.mem_append.1 h with h6 | h6
                · rcases List.mem_append.1 h6 with h7 | h7
                  · exact absurd h7 (advanced_not_mem_gate _ _)
                  · simp at h7
                · revert h6
                  split <;> simp
              · rw [if_neg h5] at h
                simp at h
            · intro ⟨hne2, _⟩
              exact absurd hidx0.symm hne2
        · rw [if_neg hcyc]
          dsimp only
          constructor
          · intro hmem
            simp at hmem
          · intro ⟨hne2, _⟩
            exact absurd rfl hne2
    · rw [if_neg h3]
      dsimp only
      constructor
      · intro hmem
        exact absurd hmem (advanced_not_mem_gate _ _)
      · intro ⟨hne2, _⟩
        exact absurd rfl hne2

/-- A cycling voice never transitions to `Ended`. -/
lemma tick_cycle_not_ended (v : Voice) (hcyc : v.cycle = true) (hend : v.ended = false) :
    v.tick.2.ended = false := by
  have hnotended : ¬ (v.ended = true) := by simp [hend]
  simp only [Voice.tick]
  rw [if_neg hnotended]
  by_cases h1 : v.steps.length = 0
  · rw [if_pos h1]
    exact hend
  · rw [if_neg h1]
    by_cases h2 : v.idx + 1 = v.steps.length ∧ v.cycle = false ∧ v.remGate = 1
    · exact absurd h2.2.1 (by simp [hcyc])
    · rw [if_neg h2]
      by_cases h3 : v.remDur = 1
      · rw [if_pos h3]
        by_cases h4 : v.idx + 1 < v.steps.length
        · rw [if_pos h4]
          exact hend
        · rw [if_neg h4, if_pos hcyc]
          exact hend
      · rw [if_neg h3]
        exact hend

/-- A cycling, resequencing voice requests a fresh sequence on the pulse
that completes a full pass. -/
lemma tick_seq_at_boundary (v : Voice) (hv : VoiceH v) (hcyc : v.cycle = true)
    (hres : v.resequence = true) (hd : v.remDur = 1)
    (hL : ¬ v.idx + 1 < v.steps.length) : Ev.seqRequest ∈ v.tick.1 := by
  obtain ⟨hwf, hidx, hdur, hgd, hlast, hend⟩ := hv
  have hne : ¬ v.steps.length = 0 := by omega
  have hnotended : ¬ (v.ended = true) := by simp [hend]
  simp only [Voice.tick]
  rw [if_neg hnotended, if_neg hne,
    if_neg (fun hcon => by rw [hcyc] at hcon; exact absurd hcon.2.1 (by simp)),
    if_pos hd, if_neg hL, if_pos hcyc, hres]
  simp

/-- C7: (1) after a voice has ended, no further callbacks fire on it until
retriggered; (2) a live well-formed non-cycling voice fires `onEnded`
exactly once over its lifetime — on the pulse that completes its last
step's gate, `pulsesToEnd` pulses in — and never again; (3) whenever a
fresh sequence is requested, the `onEnded` callback fires immediately
before the request in the same pulse; (4) `onAdvanced` fires precisely
when the active step index changes, carrying the new index. -/
theorem voice_callbacks_spec :
    (∀ (v : Voice) (n : ℕ), v.ended = true → v.run n = []) ∧
    (∀ (v : Voice) (n : ℕ), VoiceH v → v.cycle = false →
      (v.run n).count Ev.endedEv = if pulsesToEnd v ≤ n then 1 else 0) ∧
    (∀ v : Voice, VoiceH v → Ev.seqRequest ∈ v.tick.1 →
      ∃ l₁ l₂ : List Ev, v.tick.1 = l₁ ++ Ev.endedEv :: Ev.seqRequest :: l₂) ∧
    (∀ (v : Voice) (j : ℕ), VoiceH v →
      (Ev.advanced j ∈ v.tick.1 ↔ v.tick.2.idx ≠ v.idx ∧ j = v.tick.2.idx)) :=
  ⟨fun v n h => run_of_ended v h n,
    fun v n hv hc => run_count_ended n v hv hc,
    fun v hv => tick_seqRequest v hv,
    fun v j hv => tick_advanced_iff v hv j⟩

/-- Witness for C7 at the spec's end-to-end scenario voices: the
non-cycling two-step voice (durations 4/4, gates 2/4, 8 pulses to end)
fires `onEnded` exactly once over 9 pulses; an ended voice stays silent;
a cycling resequencing voice at its pass boundary fires `onEnded`
immediately before its sequence request; and on the pulse that advances
from step 0 the `onAdvanced 1` callback fires. -/
theorem voice_callbacks_spec_witness :
    ((⟨[⟨[], 4, 2⟩, ⟨[], 4, 4⟩], 0, 4, 2, false, false, false, 0⟩ : Voice).run 9).count
        Ev.endedEv =
      (if pulsesToEnd ⟨[⟨[], 4, 2⟩, ⟨[], 4, 4⟩], 0, 4, 2, false, false, false, 0⟩ ≤ 9
        then 1 else 0) ∧
    (⟨[⟨[], 4, 2⟩], 0, 4, 2, false, false, true, 0⟩ : Voice).run 3 = [] ∧
    (∃ l₁ l₂ : List Ev,
      (⟨[⟨[], 4, 2⟩, ⟨[], 4, 4⟩], 1, 1, 1, true, true, false, 0⟩ : Voice).tick.1 =
        l₁ ++ Ev.endedEv :: Ev.seqRequest :: l₂) ∧
    (Ev.advanced 1 ∈
        (⟨[⟨[], 4, 2⟩, ⟨[], 4, 4⟩], 0, 1, 0, false, false, false, 0⟩ : Voice).tick.1 ↔
      (⟨[⟨[], 4, 2⟩, ⟨[], 4, 4⟩], 0, 1, 0, false, false, false, 0⟩ : Voice).tick.2.idx ≠
          (⟨[⟨[], 4, 2⟩, ⟨[], 4, 4⟩], 0, 1, 0, false, false, false, 0⟩ : Voice).idx ∧
        1 = (⟨[⟨[], 4, 2⟩, ⟨[], 4, 4⟩], 0, 1, 0, false, false, false, 0⟩ : Voice).tick.2.idx) :=
  ⟨voice_callbacks_spec.2.1 ⟨[⟨[], 4, 2⟩, ⟨[], 4, 4⟩], 0, 4, 2, false, false, false, 0⟩ 9
      (by decide) rfl,
    voice_callbacks_spec.1 ⟨[⟨[], 4, 2⟩], 0, 4, 2, false, false, true, 0⟩ 3 rfl,
    voice_callbacks_spec.2.2.1 ⟨[⟨[], 4, 2⟩, ⟨[], 4, 4⟩], 1, 1, 1, true, true, false, 0⟩
      (by decide) (by decide),
    voice_callbacks_spec.2.2.2 ⟨[⟨[], 4, 2⟩, ⟨[], 4, 4⟩], 0, 1, 0, false, false, false, 0⟩ 1
      (by decide)⟩

/-- C9: a `Pattern` constructed without options has `keyRange = [0, 127]`,
`velocityRange = [0, 127]`, `cycle = true` and `resequence = true`; it
therefore matches every incoming note-on in the MIDI domain regardless of
key and velocity; a cycling voice never transitions to `Ended` (it cycles
for as long as the note is held); and a cycling resequencing voice
requests a fresh step list from `onSequence` on every cycle boundary. -/
theorem pattern_defaults_spec :
    (mkPattern emptyOptions).keyRange = (0, 127) ∧
    (mkPattern emptyOptions).velocityRange = (0, 127) ∧
    (mkPattern emptyOptions).cycle = true ∧
    (mkPattern emptyOptions).resequence = true ∧
    (∀ key vel : ℕ, key ≤ 127 → vel ≤ 127 →
      (mkPattern emptyOptions).matchesNote key vel = true) ∧
    (∀ v : Voice, v.cycle = true → v.ended = false → v.tick.2.ended = false) ∧
    (∀ v : Voice, VoiceH v → v.cycle = true → v.resequence = true →
      v.remDur = 1 → v.idx + 1 = v.steps.length → Ev.seqRequest ∈ v.tick.1) := by
  refine ⟨rfl, rfl, rfl, rfl, ?_, ?_, ?_⟩
  · intro key vel h1 h2
    simp [mkPattern, emptyOptions, Pattern.matchesNote]
    omega
  · exact tick_cycle_not_ended
  · intro v hv h1 h2 h3 h4
    exact tick_seq_at_boundary v hv h1 h2 h3 (by omega)

/-- Witness for C9: the default pattern matches the note-on (key 60,
velocity 100); a concrete cycling voice does not end on its boundary
pulse and requests a fresh sequence there. -/
theorem pattern_defaults_spec_witness :
    (mkPattern emptyOptions).matchesNote 60 100 = true ∧
    (⟨[⟨[], 4, 4⟩], 0, 1, 0, true, true, false, 0⟩ : Voice).tick.2.ended = false ∧
    Ev.seqRequest ∈ (⟨[⟨[], 4, 4⟩], 0, 1, 0, true, true, false, 0⟩ : Voice).tick.1 :=
  ⟨pattern_defaults_spec.2.2.2.2.1 60 100 (by decide) (by decide),
    pattern_defaults_spec.2.2.2.2.2.1 ⟨[⟨[], 4, 4⟩], 0, 1, 0, true, true, false, 0⟩ rfl rfl,
    pattern_defaults_spec.2.2.2.2.2.2 ⟨[⟨[], 4, 4⟩], 0, 1, 0, true, true, false, 0⟩
      (by decide) rfl rfl rfl (by decide)⟩

end sattern
